import Mathlib

/-!
# hstspreload: the HSTS header parser and the preload requirement check

A shallow embedding of `header.go`.

* A Go `string` is modelled by the list of its runes (`List Char`), that is, by
  a well-formed UTF-8 text.  The directive grammar is ASCII, so byte offsets
  into a matched ASCII prefix and rune offsets agree.
* A Go `error` is modelled by `Option String`: `none` is `nil`, `some msg` is
  the error whose text is `msg`.
* `uint64` values are natural numbers; arithmetic that may wrap is written
  with an explicit `% 2 ^ 64`.
* A run-time panic (a slice out of range) is the outer `none` of the result
  of `ParseHeaderString` and `CheckHeaderString`.
* For arbitrary byte strings, well-formed UTF-8 or not, the parser is embedded
  a second time on byte lists (`ParseHeaderStringBytes`), with the two library
  functions that decode UTF-8 as parameters.
-/

namespace Hstspreload

/-! ## The data model -/

/-- The constant `BOGUS_MAX_AGE = (1<<64 - 1)`: the value stored in `maxAgeSeconds` while no
max-age has been parsed. -/
def BOGUS_MAX_AGE : Nat := 2 ^ 64 - 1

/-- The struct `HSTSHeader`: `maxAgeSeconds` is meaningful only when
`maxAgePresent` is true. -/
structure HSTSHeader where
  preload : Bool
  includeSubDomains : Bool
  maxAgePresent : Bool
  maxAgeSeconds : Nat
deriving DecidableEq, Repr

/-- The function `headersEqual`: field-wise comparison, where `maxAgeSeconds` is compared
only when the first header has a max-age. -/
def headersEqual (header1 header2 : HSTSHeader) : Bool :=
  if header1.preload != header2.preload then false
  else if header1.includeSubDomains != header2.includeSubDomains then false
  else if header1.maxAgePresent != header2.maxAgePresent then false
  else if header1.maxAgePresent && (header1.maxAgeSeconds != header2.maxAgeSeconds) then false
  else true

/-- The record `ParseHeaderString` starts from (lines 48-53). -/
def initialHeader : HSTSHeader :=
  { preload := false, includeSubDomains := false, maxAgePresent := false,
    maxAgeSeconds := BOGUS_MAX_AGE }

/-! ## The library functions the parser calls -/

/-- Go's `unicode.IsSpace`: the runes with the Unicode White_Space property. -/
def isSpace (c : Char) : Bool :=
  let r := c.toNat
  (9 ≤ r && r ≤ 13) || r == 0x20 || r == 0x85 || r == 0xA0 || r == 0x1680 ||
  (0x2000 ≤ r && r ≤ 0x200A) || r == 0x2028 || r == 0x2029 || r == 0x202F ||
  r == 0x205F || r == 0x3000

/-- Go's `strings.TrimSpace`: removes the leading and the trailing white space. -/
def TrimSpace (s : List Char) : List Char :=
  (s.dropWhile isSpace).rdropWhile isSpace

/-- Go's `unicode.ToLower` on one rune.  `A`..`Z` go to `a`..`z`.  Outside ASCII
exactly two runes have an ASCII lower case: U+0130 (to `i`) and U+212A (to
`k`).  Every other rune outside ASCII has a lower case outside ASCII, which no
comparison of the parser can tell from the rune itself; such runes are kept.
So the record returned, and whether an error is returned, are those of the
code for every input; the value echoed between the brackets of a
`Could not parse max-age value` error is the code's when that value is ASCII,
and statements about that text are made for ASCII values only. -/
def toLowerRune (c : Char) : Char :=
  if 65 ≤ c.toNat ∧ c.toNat ≤ 90 then Char.ofNat (c.toNat + 32)
  else if c.toNat = 0x130 then 'i'
  else if c.toNat = 0x212A then 'k'
  else c

/-- Go's `strings.ToLower`: maps every rune to its lower case. -/
def ToLower (s : List Char) : List Char := s.map toLowerRune

/-- Go's `strings.HasPrefix`: whether `s` begins with `pre`. -/
def HasPrefix (s pre : List Char) : Bool := pre.isPrefixOf s

/-- Go's `strings.Split(s, ";")`: the pieces of `s` between the semicolons, in
order; a string with `n` semicolons has `n + 1` pieces, the empty string one. -/
def Split : List Char → List (List Char)
  | [] => [[]]
  | c :: cs =>
    if c = ';' then [] :: Split cs
    else
      match Split cs with
      | [] => [[c]]
      | piece :: pieces => (c :: piece) :: pieces

/-- The slice expression `s[n:]`: the slice from offset `n`; out of range (`none`) when `n` exceeds
the length. -/
def sliceFrom (s : List Char) (n : Nat) : Option (List Char) :=
  if n ≤ s.length then some (s.drop n) else none

/-- The digit value `strconv.ParseUint` gives a byte: decimal digits and
letters (for bases above ten); `none` for any other byte. -/
def digitVal (d : Char) : Option Nat :=
  if 48 ≤ d.toNat ∧ d.toNat ≤ 57 then some (d.toNat - 48)
  else if 97 ≤ d.toNat ∧ d.toNat ≤ 122 then some (d.toNat - 97 + 10)
  else if 65 ≤ d.toNat ∧ d.toNat ≤ 90 then some (d.toNat - 65 + 10)
  else none

/-- In `ParseUint`, `cutoff = maxUint64/10 + 1`: the least `n` with `n * 10 > maxUint64`. -/
def cutoff : Nat := (2 ^ 64 - 1) / 10 + 1

/-- In `ParseUint`, `maxVal = 1<<63 - 1`, the largest value of bit size 63. -/
def maxVal : Nat := 2 ^ 63 - 1

/-- The digit loop of `strconv.ParseUint(s, 10, 63)` with the running value
`n`; `none` is a syntax or a range error. -/
def parseUintLoop (n : Nat) : List Char → Option Nat
  | [] => some n
  | d :: ds =>
    match digitVal d with
    | none => none
    | some v =>
      if 10 ≤ v then none
      else if cutoff ≤ n then none
      else
        let n10 := (n * 10) % 2 ^ 64
        let n1 := (n10 + v) % 2 ^ 64
        if n1 < n10 ∨ maxVal < n1 then none
        else parseUintLoop n1 ds

/-- Go's `strconv.ParseUint(s, 10, 63)`: `some n` when it returns `n` with a nil
error, `none` when it returns an error (empty input, a byte that is not a
decimal digit, or a value above `1<<63 - 1`). -/
def ParseUint (s : List Char) : Option Nat :=
  if s.length < 1 then none else parseUintLoop 0 s

/-! ## `ParseHeaderString` -/

/-- What `ParseHeaderString` returns: the header and the error. -/
structure ParseResult where
  header : HSTSHeader
  err : Option String
deriving DecidableEq, Repr

/-- The second loop of `ParseHeaderString` (lines 61-85) over the trimmed
pieces, followed by the final `return hstsHeader, nil`. -/
def parseParts (hstsHeader : HSTSHeader) : List (List Char) → Option ParseResult
  | [] => some { header := hstsHeader, err := none }
  | part :: rest =>
    let part := ToLower part
    if part = "preload".toList then
      parseParts { hstsHeader with preload := true } rest
    else if part = "includesubdomains".toList then
      parseParts { hstsHeader with includeSubDomains := true } rest
    else if HasPrefix part "max-age=".toList then
      match sliceFrom part 8 with
      | none => none
      | some maxAgeNumericalString =>
        match ParseUint maxAgeNumericalString with
        | none =>
          some { header := hstsHeader,
                 err := some ("Could not parse max-age value [" ++
                   String.mk maxAgeNumericalString ++ "].") }
        | some maxAge =>
          parseParts { hstsHeader with maxAgePresent := true, maxAgeSeconds := maxAge } rest
    else if HasPrefix part "max-age".toList then
      some { header := hstsHeader,
             err := some "The max-age directive name is present without a value." }
    else parseParts hstsHeader rest

/-- The function `ParseHeaderString`: split at the semicolons, trim every piece, then run
the directive loop from the initial header. -/
def ParseHeaderString (headerString : List Char) : Option ParseResult :=
  parseParts initialHeader ((Split headerString).map TrimSpace)

/-! ## `CheckHeader` and `CheckHeaderString` -/

/-- The function `CheckHeader`: the first requirement the header misses, or `nil`. -/
def CheckHeader (hstsHeader : HSTSHeader) : Option String :=
  if !hstsHeader.includeSubDomains then
    some "Must have the `includeSubDomains` directive."
  else if !hstsHeader.preload then
    some "Must have the `preload` directive."
  else if !hstsHeader.maxAgePresent then
    some "Must have the `max-age` directive."
  else if hstsHeader.maxAgeSeconds < 10886400 then
    some ("The max-age must be at least 10886400 seconds (== 18 weeks). The header had max-age="
      ++ toString hstsHeader.maxAgeSeconds)
  else none

/-- The function `CheckHeaderString`: parse, give up with a fixed error when the parse
failed, check the parsed header otherwise. -/
def CheckHeaderString (headerString : List Char) : Option (Option String) :=
  match ParseHeaderString headerString with
  | none => none
  | some r =>
    match r.err with
    | some _ => some (some "Error parsing HSTS header.")
    | none => some (CheckHeader r.header)

/-! ## The parser on byte strings

A Go string is a sequence of bytes, well-formed UTF-8 or not.  Here the
parser is embedded on byte lists.  `strings.Split`, `strings.HasPrefix`, the
slice and `strconv.ParseUint` work byte by byte and are written out;
`strings.TrimSpace` and `strings.ToLower` decode UTF-8 and consult the Unicode
tables, and may change the length of a string: they are parameters, so that
what is proved holds whatever they return. -/

/-- The bytes of an ASCII literal. -/
def asciiBytes (s : String) : List Nat := s.toList.map Char.toNat

/-- Go's `strings.Split(s, ";")` on bytes; 59 is the semicolon. -/
def SplitBytes : List Nat → List (List Nat)
  | [] => [[]]
  | c :: cs =>
    if c = 59 then [] :: SplitBytes cs
    else
      match SplitBytes cs with
      | [] => [[c]]
      | piece :: pieces => (c :: piece) :: pieces

/-- Go's `strings.HasPrefix` on bytes. -/
def HasPrefixBytes (s pre : List Nat) : Bool := pre.isPrefixOf s

/-- The slice expression `s[n:]` on bytes: out of range (`none`) when the byte
offset `n` exceeds the length in bytes. -/
def sliceFromBytes (s : List Nat) (n : Nat) : Option (List Nat) :=
  if n ≤ s.length then some (s.drop n) else none

/-- The digit value `strconv.ParseUint` gives a byte. -/
def digitValByte (d : Nat) : Option Nat :=
  if 48 ≤ d ∧ d ≤ 57 then some (d - 48)
  else if 97 ≤ d ∧ d ≤ 122 then some (d - 97 + 10)
  else if 65 ≤ d ∧ d ≤ 90 then some (d - 65 + 10)
  else none

/-- The digit loop of `strconv.ParseUint(s, 10, 63)` over bytes. -/
def parseUintLoopBytes (n : Nat) : List Nat → Option Nat
  | [] => some n
  | d :: ds =>
    match digitValByte d with
    | none => none
    | some v =>
      if 10 ≤ v then none
      else if cutoff ≤ n then none
      else
        let n10 := (n * 10) % 2 ^ 64
        let n1 := (n10 + v) % 2 ^ 64
        if n1 < n10 ∨ maxVal < n1 then none
        else parseUintLoopBytes n1 ds

/-- Go's `strconv.ParseUint(s, 10, 63)` over bytes. -/
def ParseUintBytes (s : List Nat) : Option Nat :=
  if s.length < 1 then none else parseUintLoopBytes 0 s

/-- What `ParseHeaderString` returns, the text of the error in bytes. -/
structure ParseResultBytes where
  header : HSTSHeader
  err : Option (List Nat)
deriving DecidableEq, Repr

/-- The second loop of `ParseHeaderString` (lines 61-85) on byte strings, with
`strings.ToLower` as the parameter `toLower`. -/
def parsePartsBytes (toLower : List Nat → List Nat) (hstsHeader : HSTSHeader) :
    List (List Nat) → Option ParseResultBytes
  | [] => some { header := hstsHeader, err := none }
  | part :: rest =>
    let part := toLower part
    if part = asciiBytes "preload" then
      parsePartsBytes toLower { hstsHeader with preload := true } rest
    else if part = asciiBytes "includesubdomains" then
      parsePartsBytes toLower { hstsHeader with includeSubDomains := true } rest
    else if HasPrefixBytes part (asciiBytes "max-age=") then
      match sliceFromBytes part 8 with
      | none => none
      | some maxAgeNumericalString =>
        match ParseUintBytes maxAgeNumericalString with
        | none =>
          some { header := hstsHeader,
                 err := some (asciiBytes "Could not parse max-age value [" ++
                   maxAgeNumericalString ++ asciiBytes "].") }
        | some maxAge =>
          parsePartsBytes toLower
            { hstsHeader with maxAgePresent := true, maxAgeSeconds := maxAge } rest
    else if HasPrefixBytes part (asciiBytes "max-age") then
      some { header := hstsHeader,
             err := some
               (asciiBytes "The max-age directive name is present without a value.") }
    else parsePartsBytes toLower hstsHeader rest

/-- The function `ParseHeaderString` on byte strings, with `strings.TrimSpace`
and `strings.ToLower` as the parameters `trimSpace` and `toLower`. -/
def ParseHeaderStringBytes (trimSpace toLower : List Nat → List Nat)
    (headerString : List Nat) : Option ParseResultBytes :=
  parsePartsBytes toLower initialHeader ((SplitBytes headerString).map trimSpace)

/-- An example of a lower-casing that changes the length of a string: every
byte `0xff`, which is ill-formed UTF-8, is replaced by the three bytes of
U+FFFD, as `strings.ToLower` of current Go versions does. -/
def replaceIllFormed (s : List Nat) : List Nat :=
  s.flatMap (fun b => if b = 255 then [239, 191, 189] else [b])

/-! ## Notions the statements use -/

/-- An ASCII decimal digit. -/
def isAsciiDigit (c : Char) : Bool := decide (48 ≤ c.toNat ∧ c.toNat ≤ 57)

/-- A string made of ASCII decimal digits only. -/
def isDigits (v : List Char) : Bool := v.all isAsciiDigit

/-- The number a digit string denotes in base ten. -/
def decimalValue (v : List Char) : Nat := v.foldl (fun n c => 10 * n + (c.toNat - 48)) 0

/-- A run of spaces and tabs. -/
def isBlank (w : List Char) : Bool := w.all (fun c => c = ' ' || c = '\t')

/-- The directive `max-age=` followed by the value `v`. -/
def maxAgeDirective (v : List Char) : List Char := "max-age=".toList ++ v

/-- The text of the error for a max-age value that does not parse (line 75). -/
def couldNotParse (v : List Char) : String :=
  "Could not parse max-age value [" ++ String.mk v ++ "]."

/-- Two runes that are equal, or are the upper and the lower case of one ASCII
letter. -/
def sameUpToCase (a b : Char) : Prop :=
  a = b ∨ (65 ≤ a.toNat ∧ a.toNat ≤ 90 ∧ b.toNat = a.toNat + 32) ∨
    (65 ≤ b.toNat ∧ b.toNat ≤ 90 ∧ a.toNat = b.toNat + 32)

instance : DecidableRel sameUpToCase := fun a b => by
  unfold sameUpToCase; infer_instance

/-- A valid max-age value: a non-empty string of ASCII digits whose decimal
value is below `2 ^ 63`. -/
def validValue (v : List Char) : Bool :=
  !v.isEmpty && isDigits v && decide (decimalValue v < 2 ^ 63)

/-- A malformed max-age token: trimmed and in lower case it starts with
`max-age`, and it is not `max-age=` followed by a valid value. -/
def malformedMaxAge (b : List Char) : Bool :=
  HasPrefix (ToLower (TrimSpace b)) "max-age".toList &&
    !(HasPrefix (ToLower (TrimSpace b)) "max-age=".toList &&
      validValue ((TrimSpace b).drop 8))

/-- The record invariant, for a header parsed from the input `s`: either the
max-age is not present and `maxAgeSeconds` holds `BOGUS_MAX_AGE`, or it is
present, below `2 ^ 63`, and the decimal value of a non-empty string of digits
(no sign) that stands in `s`. -/
def maxAgeInvariant (s : List Char) (h : HSTSHeader) : Prop :=
  (h.maxAgePresent = false ∧ h.maxAgeSeconds = BOGUS_MAX_AGE) ∨
  (h.maxAgePresent = true ∧ h.maxAgeSeconds < 2 ^ 63 ∧
    ∃ v : List Char, v ≠ [] ∧ isDigits v = true ∧ v <:+: s ∧
      decimalValue v = h.maxAgeSeconds)

/-- The directives of a header as the loop compares them: the pieces between
the semicolons, trimmed and in lower case. -/
def directives (s : List Char) : List (List Char) :=
  (Split s).map (fun t => ToLower (TrimSpace t))

/-- The value of a directive that starts with `max-age=`. -/
def maxAgeValue (t : List Char) : Option (List Char) :=
  if HasPrefix t "max-age=".toList then some (t.drop 8) else none

/-- The values of the `max-age=` directives of a header, in order. -/
def maxAgeValues (s : List Char) : List (List Char) :=
  (directives s).filterMap maxAgeValue

/-- An unrecognized token: trimmed and in lower case it is neither `preload`
nor `includesubdomains`, and it does not start with `max-age`. -/
def unrecognized (u : List Char) : Bool :=
  ToLower (TrimSpace u) != "preload".toList &&
    ToLower (TrimSpace u) != "includesubdomains".toList &&
    !HasPrefix (ToLower (TrimSpace u)) "max-age".toList

/-! ## Facts about the library functions -/

theorem foldl_digit_ge (ds : List Char) (n : Nat) :
    n ≤ ds.foldl (fun n c => 10 * n + (c.toNat - 48)) n := by
  induction ds generalizing n with
  | nil => simp
  | cons d ds ih =>
    simp only [List.foldl_cons]
    exact le_trans (by omega) (ih _)

theorem digitVal_of_digit (c : Char) (h : isAsciiDigit c = true) :
    digitVal c = some (c.toNat - 48) := by
  simp only [isAsciiDigit, decide_eq_true_eq] at h
  simp [digitVal, h]

theorem parseUintLoop_digits (ds : List Char) (n : Nat) (hd : isDigits ds = true)
    (hv : ds.foldl (fun n c => 10 * n + (c.toNat - 48)) n < 2 ^ 63) :
    parseUintLoop n ds = some (ds.foldl (fun n c => 10 * n + (c.toNat - 48)) n) := by
  induction ds generalizing n with
  | nil => simp [parseUintLoop]
  | cons d ds ih =>
    simp only [isDigits, List.all_cons, Bool.and_eq_true] at hd
    obtain ⟨hd1, hd2⟩ := hd
    have hdig := hd1
    simp only [isAsciiDigit, decide_eq_true_eq] at hdig
    simp only [List.foldl_cons] at hv ⊢
    have hge := foldl_digit_ge ds (10 * n + (d.toNat - 48))
    have h1 : ¬ (10 ≤ d.toNat - 48) := by omega
    have h2 : ¬ (cutoff ≤ n) := by simp only [cutoff]; omega
    have h3 : (n * 10) % 2 ^ 64 = n * 10 := Nat.mod_eq_of_lt (by omega)
    have h4 : (n * 10 + (d.toNat - 48)) % 2 ^ 64 = 10 * n + (d.toNat - 48) := by
      rw [Nat.mod_eq_of_lt (by omega)]; omega
    have h5 : ¬ (10 * n + (d.toNat - 48) < n * 10 ∨ maxVal < 10 * n + (d.toNat - 48)) := by
      simp only [maxVal]; omega
    rw [parseUintLoop, digitVal_of_digit d hd1]
    simp only [h1, h2, h3, h4, h5, if_false]
    exact ih _ hd2 hv

/-- A non-empty digit string below `2 ^ 63` parses to its value. -/
theorem ParseUint_digits (v : List Char) (hne : v ≠ []) (hd : isDigits v = true)
    (hv : decimalValue v < 2 ^ 63) : ParseUint v = some (decimalValue v) := by
  have hlen : ¬ (v.length < 1) := by
    cases v with
    | nil => exact absurd rfl hne
    | cons a t => simp
  simp only [ParseUint, hlen, if_false]
  exact parseUintLoop_digits v 0 hd hv

theorem Split_ne_nil (s : List Char) : Split s ≠ [] := by
  cases s with
  | nil => simp [Split]
  | cons c cs =>
    by_cases hc : c = ';'
    · simp [Split, hc]
    · cases h : Split cs <;> simp [Split, hc, h]

/-- Splitting distributes over a semicolon. -/
theorem Split_append_sep (a b : List Char) :
    Split (a ++ ';' :: b) = Split a ++ Split b := by
  induction a with
  | nil => simp [Split]
  | cons c cs ih =>
    by_cases hc : c = ';'
    · simp [Split, hc, ih]
    · cases h : Split cs with
      | nil => exact absurd h (Split_ne_nil cs)
      | cons piece pieces => simp [Split, hc, ih, h]

/-- A string without a semicolon is a single piece. -/
theorem Split_of_not_mem (a : List Char) (h : ';' ∉ a) : Split a = [a] := by
  induction a with
  | nil => simp [Split]
  | cons c cs ih =>
    simp only [List.mem_cons, not_or] at h
    have hc : ¬ c = ';' := fun e => h.1 e.symm
    simp [Split, hc, ih h.2]

theorem rdropWhile_append_of_pos (x w : List Char) (h : ∀ c ∈ w, isSpace c = true) :
    (x ++ w).rdropWhile isSpace = x.rdropWhile isSpace := by
  induction w using List.reverseRecOn with
  | nil => simp
  | append_singleton w c ih =>
    rw [← List.append_assoc, List.rdropWhile_concat_pos _ _ _ (h c (by simp))]
    exact ih (fun c hc => h c (by simp [hc]))

/-- White space around a string does not change what `TrimSpace` returns. -/
theorem TrimSpace_pad (w0 d w1 : List Char) (h0 : ∀ c ∈ w0, isSpace c = true)
    (h1 : ∀ c ∈ w1, isSpace c = true) : TrimSpace (w0 ++ d ++ w1) = TrimSpace d := by
  unfold TrimSpace
  rw [List.append_assoc, List.dropWhile_append_of_pos h0, List.dropWhile_append]
  by_cases hd : (List.dropWhile isSpace d).isEmpty = true
  · have hd2 : List.dropWhile isSpace d = [] := List.isEmpty_iff.mp hd
    have hw : List.dropWhile isSpace w1 = [] := List.dropWhile_eq_nil_iff.mpr (by simpa using h1)
    simp [hd2, hw]
  · simp only [hd]
    exact rdropWhile_append_of_pos _ _ h1

/-- A string that neither starts nor ends with white space is left as it is. -/
theorem TrimSpace_eq_self (a : Char) (t : List Char) (ha : isSpace a = false)
    (hl : isSpace ((a :: t).getLast (List.cons_ne_nil a t)) = false) :
    TrimSpace (a :: t) = a :: t := by
  unfold TrimSpace
  rw [List.dropWhile_cons_of_neg (by simp [ha])]
  exact List.rdropWhile_eq_self_iff.mpr (fun _ => by simp [hl])

theorem isSpace_of_blank (w : List Char) (h : isBlank w = true) :
    ∀ c ∈ w, isSpace c = true := by
  intro c hc
  simp only [isBlank, List.all_eq_true, Bool.or_eq_true, decide_eq_true_eq] at h
  rcases h c hc with h | h <;> subst h <;> decide

theorem not_mem_of_blank (w : List Char) (h : isBlank w = true) : ';' ∉ w := by
  intro hc
  simp only [isBlank, List.all_eq_true, Bool.or_eq_true, decide_eq_true_eq] at h
  rcases h _ hc with h | h <;> exact absurd h (by decide)

theorem isSpace_digit (c : Char) (h : isAsciiDigit c = true) : isSpace c = false := by
  simp only [isAsciiDigit, decide_eq_true_eq] at h
  simp only [isSpace, Bool.or_eq_false_iff, Bool.and_eq_false_iff, beq_eq_false_iff_ne,
    decide_eq_false_iff_not]
  omega

theorem toLowerRune_digit (c : Char) (h : isAsciiDigit c = true) : toLowerRune c = c := by
  simp only [isAsciiDigit, decide_eq_true_eq] at h
  have h1 : ¬ (65 ≤ c.toNat ∧ c.toNat ≤ 90) := by omega
  have h2 : ¬ c.toNat = 0x130 := by omega
  have h3 : ¬ c.toNat = 0x212A := by omega
  simp [toLowerRune, h1, h2, h3]

theorem ToLower_digits (v : List Char) (h : isDigits v = true) : ToLower v = v := by
  induction v with
  | nil => rfl
  | cons c cs ih =>
    simp only [isDigits, List.all_cons, Bool.and_eq_true] at h
    simp only [ToLower, List.map_cons, toLowerRune_digit c h.1]
    exact congrArg _ (ih h.2)

theorem semicolon_not_mem_digits (v : List Char) (h : isDigits v = true) : ';' ∉ v := by
  intro hc
  simp only [isDigits, List.all_eq_true] at h
  exact absurd (h _ hc) (by decide)

/-! ## One step of the directive loop -/

theorem parseParts_preload (h : HSTSHeader) (part : List Char) (rest : List (List Char))
    (hp : ToLower part = "preload".toList) :
    parseParts h (part :: rest) = parseParts { h with preload := true } rest := by
  simp [parseParts, hp]

theorem parseParts_includeSubDomains (h : HSTSHeader) (part : List Char)
    (rest : List (List Char)) (hp : ToLower part = "includesubdomains".toList) :
    parseParts h (part :: rest) = parseParts { h with includeSubDomains := true } rest := by
  simp [parseParts, hp]

theorem parseParts_maxAge (h : HSTSHeader) (part v : List Char) (rest : List (List Char))
    (hp : ToLower part = maxAgeDirective v) :
    parseParts h (part :: rest) =
      match ParseUint v with
      | none => some { header := h, err := some (couldNotParse v) }
      | some maxAge =>
        parseParts { h with maxAgePresent := true, maxAgeSeconds := maxAge } rest := by
  simp [parseParts, hp, maxAgeDirective, HasPrefix, sliceFrom, couldNotParse]

theorem parseParts_noValue (h : HSTSHeader) (part : List Char) (rest : List (List Char))
    (hp : HasPrefix (ToLower part) "max-age".toList = true)
    (hn : HasPrefix (ToLower part) "max-age=".toList = false) :
    parseParts h (part :: rest) =
      some { header := h,
             err := some "The max-age directive name is present without a value." } := by
  have h1 : ToLower part ≠ "preload".toList := by
    intro e; rw [e] at hp; exact absurd hp (by decide)
  have h2 : ToLower part ≠ "includesubdomains".toList := by
    intro e; rw [e] at hp; exact absurd hp (by decide)
  simp only [parseParts, h1, h2, hp, hn, if_false, Bool.false_eq_true, if_true]

theorem HasPrefix_maxAgeEq_imp (s : List Char)
    (h : HasPrefix s "max-age=".toList = true) : HasPrefix s "max-age".toList = true := by
  simp only [HasPrefix, List.isPrefixOf_iff_prefix] at h ⊢
  exact List.IsPrefix.trans (by decide) h

theorem parseParts_other (h : HSTSHeader) (part : List Char) (rest : List (List Char))
    (h1 : ToLower part ≠ "preload".toList) (h2 : ToLower part ≠ "includesubdomains".toList)
    (h3 : HasPrefix (ToLower part) "max-age".toList = false) :
    parseParts h (part :: rest) = parseParts h rest := by
  have h4 : HasPrefix (ToLower part) "max-age=".toList = false := by
    cases h : HasPrefix (ToLower part) "max-age=".toList
    · rfl
    · rw [HasPrefix_maxAgeEq_imp _ h] at h3; exact absurd h3 (by decide)
  simp only [parseParts, h1, h2, h3, h4, if_false, Bool.false_eq_true]

/-! ## The three directives of a full header -/

theorem isSpace_maxAgeDirective (v : List Char) (hd : isDigits v = true) :
    ∀ c ∈ maxAgeDirective v, isSpace c = false := by
  intro c hc
  simp only [maxAgeDirective, List.mem_append] at hc
  rcases hc with hc | hc
  · revert c; decide
  · simp only [isDigits, List.all_eq_true] at hd
    exact isSpace_digit c (hd c hc)

theorem TrimSpace_maxAgeDirective (v : List Char) (hd : isDigits v = true) :
    TrimSpace (maxAgeDirective v) = maxAgeDirective v := by
  have hall := isSpace_maxAgeDirective v hd
  have hshape : maxAgeDirective v = 'm' :: ("ax-age=".toList ++ v) := rfl
  rw [hshape] at hall ⊢
  exact TrimSpace_eq_self _ _ (by decide) (hall _ (List.getLast_mem _))

theorem ToLower_maxAgeDirective (v : List Char) (hd : isDigits v = true) :
    ToLower (maxAgeDirective v) = maxAgeDirective v := by
  have h := ToLower_digits v hd
  simp only [ToLower] at h
  simp only [ToLower, maxAgeDirective, List.map_append, h]
  rfl

theorem semicolon_not_mem_maxAgeDirective (v : List Char) (hd : isDigits v = true) :
    ';' ∉ maxAgeDirective v := by
  intro hc
  simp only [maxAgeDirective, List.mem_append] at hc
  rcases hc with hc | hc
  · exact absurd hc (by decide)
  · exact semicolon_not_mem_digits v hd hc

theorem decimalValue_pos_ne_nil (v : List Char) (h : 0 < decimalValue v) : v ≠ [] := by
  intro e; subst e; simp [decimalValue] at h

/-- C7: for every non-empty string `v` of ASCII digits whose decimal value is
below `2 ^ 63`, `ParseHeaderString` applied to `max-age=` followed by `v`
returns, with a nil error, the header whose max-age is present and equal to
that value and whose `preload` and `includeSubDomains` are false. -/
theorem ParseHeaderString_maxAge_value (v : List Char) (hne : v ≠ [])
    (hd : isDigits v = true) (hv : decimalValue v < 2 ^ 63) :
    ParseHeaderString ("max-age=".toList ++ v) =
      some { header := { preload := false, includeSubDomains := false,
                         maxAgePresent := true, maxAgeSeconds := decimalValue v },
             err := none } := by
  have hs := Split_of_not_mem _ (semicolon_not_mem_maxAgeDirective v hd)
  have ht := TrimSpace_maxAgeDirective v hd
  have hl := ToLower_maxAgeDirective v hd
  simp only [maxAgeDirective] at hs ht hl
  simp only [ParseHeaderString, hs, List.map_cons, List.map_nil, ht]
  rw [parseParts_maxAge _ _ v _ hl, ParseUint_digits v hne hd hv]
  rfl

theorem ParseHeaderString_maxAge_value_witness :
    ParseHeaderString ("max-age=".toList ++ "12345678".toList) =
      some { header := { preload := false, includeSubDomains := false,
                         maxAgePresent := true, maxAgeSeconds := 12345678 },
             err := none } :=
  ParseHeaderString_maxAge_value "12345678".toList (by decide) (by decide) (by decide)

/-- C2: `CheckHeader` returns a nil error exactly for the headers with
`includeSubDomains` true, `preload` true, a max-age present and a max-age value
of at least 10886400; so the value 10886399 is rejected and 10886400 is
accepted. -/
theorem CheckHeader_eq_none_iff :
    (∀ h : HSTSHeader, CheckHeader h = none ↔
      (h.includeSubDomains = true ∧ h.preload = true ∧ h.maxAgePresent = true ∧
        10886400 ≤ h.maxAgeSeconds)) ∧
    CheckHeader { preload := true, includeSubDomains := true, maxAgePresent := true,
                  maxAgeSeconds := 10886399 } ≠ none ∧
    CheckHeader { preload := true, includeSubDomains := true, maxAgePresent := true,
                  maxAgeSeconds := 10886400 } = none := by
  refine ⟨?_, by simp [CheckHeader], by simp [CheckHeader]⟩
  intro h
  obtain ⟨p, i, m, n⟩ := h
  cases p <;> cases i <;> cases m <;> simp [CheckHeader]

theorem perm_pair_cases {α : Type} (y z u v : α) (h : List.Perm [y, z] [u, v]) :
    (y = u ∧ z = v) ∨ (y = v ∧ z = u) := by
  have hy : y ∈ [u, v] := h.subset (by simp)
  simp only [List.mem_cons, List.mem_singleton, List.not_mem_nil, or_false] at hy
  rcases hy with e | e
  · subst e
    have h2 := List.Perm.cons_inv h
    exact Or.inl ⟨rfl, List.singleton_perm_singleton.mp h2⟩
  · subst e
    have h2 := List.Perm.cons_inv (h.trans (List.Perm.swap y u []))
    exact Or.inr ⟨rfl, List.singleton_perm_singleton.mp h2⟩

theorem perm_three_cases {α : Type} (x y z a b c : α) (h : List.Perm [x, y, z] [a, b, c]) :
    (x = a ∧ y = b ∧ z = c) ∨ (x = a ∧ y = c ∧ z = b) ∨ (x = b ∧ y = a ∧ z = c) ∨
    (x = b ∧ y = c ∧ z = a) ∨ (x = c ∧ y = a ∧ z = b) ∨ (x = c ∧ y = b ∧ z = a) := by
  have hx : x ∈ [a, b, c] := h.subset (by simp)
  simp only [List.mem_cons, List.mem_singleton, List.not_mem_nil, or_false] at hx
  rcases hx with e | e | e
  · subst e
    rcases perm_pair_cases _ _ _ _ (List.Perm.cons_inv h) with ⟨h1, h2⟩ | ⟨h1, h2⟩
    · exact Or.inl ⟨rfl, h1, h2⟩
    · exact Or.inr (Or.inl ⟨rfl, h1, h2⟩)
  · subst e
    have hp : List.Perm [a, x, c] [x, a, c] := List.Perm.swap x a [c]
    rcases perm_pair_cases _ _ _ _ (List.Perm.cons_inv (h.trans hp)) with ⟨h1, h2⟩ | ⟨h1, h2⟩
    · exact Or.inr (Or.inr (Or.inl ⟨rfl, h1, h2⟩))
    · exact Or.inr (Or.inr (Or.inr (Or.inl ⟨rfl, h1, h2⟩)))
  · subst e
    have hp : List.Perm ([a, b] ++ [x]) ([x] ++ [a, b]) := List.perm_append_comm
    rcases perm_pair_cases _ _ _ _ (List.Perm.cons_inv (h.trans hp)) with ⟨h1, h2⟩ | ⟨h1, h2⟩
    · exact Or.inr (Or.inr (Or.inr (Or.inr (Or.inl ⟨rfl, h1, h2⟩))))
    · exact Or.inr (Or.inr (Or.inr (Or.inr (Or.inr ⟨rfl, h1, h2⟩))))

/-- A header of three padded directives is parsed as the list of the three
trimmed directives. -/
theorem ParseHeaderString_three (d1 d2 d3 w0 w1 w2 w3 w4 w5 : List Char)
    (h1 : ';' ∉ d1) (h2 : ';' ∉ d2) (h3 : ';' ∉ d3)
    (b0 : isBlank w0 = true) (b1 : isBlank w1 = true) (b2 : isBlank w2 = true)
    (b3 : isBlank w3 = true) (b4 : isBlank w4 = true) (b5 : isBlank w5 = true) :
    ParseHeaderString
        (w0 ++ d1 ++ w1 ++ ';' :: (w2 ++ d2 ++ w3 ++ ';' :: (w4 ++ d3 ++ w5))) =
      parseParts initialHeader [TrimSpace d1, TrimSpace d2, TrimSpace d3] := by
  have n0 := not_mem_of_blank w0 b0
  have n1 := not_mem_of_blank w1 b1
  have n2 := not_mem_of_blank w2 b2
  have n3 := not_mem_of_blank w3 b3
  have n4 := not_mem_of_blank w4 b4
  have n5 := not_mem_of_blank w5 b5
  have s1 : Split (w0 ++ d1 ++ w1) = [w0 ++ d1 ++ w1] :=
    Split_of_not_mem _ (by simp [n0, n1, h1])
  have s2 : Split (w2 ++ d2 ++ w3) = [w2 ++ d2 ++ w3] :=
    Split_of_not_mem _ (by simp [n2, n3, h2])
  have s3 : Split (w4 ++ d3 ++ w5) = [w4 ++ d3 ++ w5] :=
    Split_of_not_mem _ (by simp [n4, n5, h3])
  simp only [ParseHeaderString, Split_append_sep, s1, s2, s3, List.cons_append, List.nil_append,
    List.map_cons, List.map_nil,
    TrimSpace_pad w0 d1 w1 (isSpace_of_blank w0 b0) (isSpace_of_blank w1 b1),
    TrimSpace_pad w2 d2 w3 (isSpace_of_blank w2 b2) (isSpace_of_blank w3 b3),
    TrimSpace_pad w4 d3 w5 (isSpace_of_blank w4 b4) (isSpace_of_blank w5 b5)]

theorem parseParts_nil (h : HSTSHeader) :
    parseParts h [] = some { header := h, err := none } := by
  simp [parseParts]

theorem parseParts_cons_preload (h : HSTSHeader) (rest : List (List Char)) :
    parseParts h ("preload".toList :: rest) = parseParts { h with preload := true } rest :=
  parseParts_preload h _ rest (by decide)

theorem parseParts_cons_includeSubDomains (h : HSTSHeader) (rest : List (List Char)) :
    parseParts h ("includeSubDomains".toList :: rest) =
      parseParts { h with includeSubDomains := true } rest :=
  parseParts_includeSubDomains h _ rest (by decide)

theorem parseParts_cons_maxAge (h : HSTSHeader) (v : List Char) (rest : List (List Char))
    (hne : v ≠ []) (hd : isDigits v = true) (hv : decimalValue v < 2 ^ 63) :
    parseParts h (maxAgeDirective v :: rest) =
      parseParts { h with maxAgePresent := true, maxAgeSeconds := decimalValue v } rest := by
  rw [parseParts_maxAge h _ v rest (ToLower_maxAgeDirective v hd), ParseUint_digits v hne hd hv]

/-- The three directives, in any order, give the full header. -/
theorem ParseHeaderString_full (v d1 d2 d3 w0 w1 w2 w3 w4 w5 : List Char)
    (hd : isDigits v = true) (hne : v ≠ []) (hv : decimalValue v < 2 ^ 63)
    (hperm : List.Perm [d1, d2, d3]
      ["preload".toList, "includeSubDomains".toList, "max-age=".toList ++ v])
    (b0 : isBlank w0 = true) (b1 : isBlank w1 = true) (b2 : isBlank w2 = true)
    (b3 : isBlank w3 = true) (b4 : isBlank w4 = true) (b5 : isBlank w5 = true) :
    ParseHeaderString
        (w0 ++ d1 ++ w1 ++ ';' :: (w2 ++ d2 ++ w3 ++ ';' :: (w4 ++ d3 ++ w5))) =
      some { header := { preload := true, includeSubDomains := true, maxAgePresent := true,
                         maxAgeSeconds := decimalValue v },
             err := none } := by
  have hM : ';' ∉ maxAgeDirective v := semicolon_not_mem_maxAgeDirective v hd
  have hP : ';' ∉ "preload".toList := by decide
  have hI : ';' ∉ "includeSubDomains".toList := by decide
  have tM := TrimSpace_maxAgeDirective v hd
  have tP : TrimSpace "preload".toList = "preload".toList := by decide
  have tI : TrimSpace "includeSubDomains".toList = "includeSubDomains".toList := by decide
  have e : "max-age=".toList ++ v = maxAgeDirective v := rfl
  rw [e] at hperm
  rcases perm_three_cases _ _ _ _ _ _ hperm with
    ⟨r1, r2, r3⟩ | ⟨r1, r2, r3⟩ | ⟨r1, r2, r3⟩ | ⟨r1, r2, r3⟩ | ⟨r1, r2, r3⟩ | ⟨r1, r2, r3⟩ <;>
  · subst r1 r2 r3
    rw [ParseHeaderString_three _ _ _ _ _ _ _ _ _ (by assumption) (by assumption)
      (by assumption) b0 b1 b2 b3 b4 b5]
    simp only [tM, tP, tI, parseParts_cons_preload, parseParts_cons_includeSubDomains,
      parseParts_cons_maxAge _ v _ hne hd hv, parseParts_nil, initialHeader]

/-- C1: for every header made of exactly the three directives `preload`,
`includeSubDomains` and `max-age=` followed by a digit string `v` with
10886400 ≤ value of `v` ≤ 31536000, in any of the six orders, separated by
semicolons and with arbitrary spaces or tabs around each directive,
`CheckHeaderString` returns `nil`: no error, and the code has no other
diagnostic to report. -/
theorem CheckHeaderString_full (v d1 d2 d3 w0 w1 w2 w3 w4 w5 : List Char)
    (hd : isDigits v = true) (hlo : 10886400 ≤ decimalValue v)
    (hhi : decimalValue v ≤ 31536000)
    (hperm : List.Perm [d1, d2, d3]
      ["preload".toList, "includeSubDomains".toList, "max-age=".toList ++ v])
    (b0 : isBlank w0 = true) (b1 : isBlank w1 = true) (b2 : isBlank w2 = true)
    (b3 : isBlank w3 = true) (b4 : isBlank w4 = true) (b5 : isBlank w5 = true) :
    CheckHeaderString
        (w0 ++ d1 ++ w1 ++ ';' :: (w2 ++ d2 ++ w3 ++ ';' :: (w4 ++ d3 ++ w5))) =
      some none := by
  have hne : v ≠ [] := decimalValue_pos_ne_nil v (by omega)
  have hv : decimalValue v < 2 ^ 63 := by omega
  have hparse := ParseHeaderString_full v d1 d2 d3 w0 w1 w2 w3 w4 w5 hd hne hv hperm
    b0 b1 b2 b3 b4 b5
  have hc : ¬ decimalValue v < 10886400 := by omega
  simp only [CheckHeaderString, hparse]
  simp [CheckHeader, hc]

theorem CheckHeaderString_full_witness :
    CheckHeaderString "  max-age=10886400 ;\tincludeSubDomains; preload\t ".toList =
      some none :=
  CheckHeaderString_full "10886400".toList "max-age=10886400".toList
    "includeSubDomains".toList "preload".toList "  ".toList " ".toList "\t".toList [] " ".toList
    "\t ".toList (by decide) (by decide) (by decide)
    ((List.Perm.swap "includeSubDomains".toList "max-age=10886400".toList
        ["preload".toList]).trans
      (@List.perm_append_comm _ ["includeSubDomains".toList, "max-age=10886400".toList]
        ["preload".toList]))
    (by decide) (by decide) (by decide) (by decide) (by decide) (by decide)

/-! ## Lower case and the parser -/

theorem toNat_ofNat_of_lt (n : Nat) (h : n < 0xd800) : (Char.ofNat n).toNat = n := by
  have hv : n.isValidChar := Or.inl h
  unfold Char.ofNat
  rw [dif_pos hv]
  rfl

/-- The code point of the lower case of a rune. -/
theorem toNat_toLowerRune (c : Char) :
    (toLowerRune c).toNat =
      if 65 ≤ c.toNat ∧ c.toNat ≤ 90 then c.toNat + 32
      else if c.toNat = 0x130 then 105
      else if c.toNat = 0x212A then 107
      else c.toNat := by
  unfold toLowerRune
  split
  · next h => exact toNat_ofNat_of_lt _ (by omega)
  · split
    · rfl
    · split <;> rfl

theorem char_eq_of_toNat_eq (a b : Char) (h : a.toNat = b.toNat) : a = b := by
  rw [← Char.ofNat_toNat a, ← Char.ofNat_toNat b, h]

theorem toLowerRune_idem (c : Char) : toLowerRune (toLowerRune c) = toLowerRune c := by
  apply char_eq_of_toNat_eq
  rw [toNat_toLowerRune (toLowerRune c), toNat_toLowerRune c]
  split_ifs <;> omega

theorem isSpace_toLowerRune (c : Char) : isSpace (toLowerRune c) = isSpace c := by
  have h := toNat_toLowerRune c
  simp only [isSpace, h]
  split_ifs with h1 h2 h3
  · have e1 : isSpace c = false := by
      simp only [isSpace, Bool.or_eq_false_iff, Bool.and_eq_false_iff, beq_eq_false_iff_ne,
        decide_eq_false_iff_not]
      omega
    simp only [isSpace] at e1
    rw [e1]
    simp only [Bool.or_eq_false_iff, Bool.and_eq_false_iff, beq_eq_false_iff_ne,
      decide_eq_false_iff_not]
    omega
  · simp [h2]
  · simp [h3]
  · rfl

theorem toLowerRune_eq_semicolon (c : Char) : toLowerRune c = ';' ↔ c = ';' := by
  constructor
  · intro h
    have h2 := toNat_toLowerRune c
    rw [h] at h2
    apply char_eq_of_toNat_eq
    have e : (';' : Char).toNat = 59 := rfl
    rw [e] at h2 ⊢
    split_ifs at h2 <;> omega
  · intro h; subst h; rfl

theorem ToLower_idem (s : List Char) : ToLower (ToLower s) = ToLower s := by
  simp [ToLower, toLowerRune_idem]

theorem Split_ToLower (s : List Char) : Split (ToLower s) = (Split s).map ToLower := by
  induction s with
  | nil => rfl
  | cons c cs ih =>
    have ih2 : Split (List.map toLowerRune cs) = (Split cs).map ToLower := ih
    by_cases hc : c = ';'
    · subst hc
      have e : toLowerRune ';' = ';' := rfl
      simp [ToLower, Split, e, ih2]
    · have hc2 : ¬ toLowerRune c = ';' := fun e => hc ((toLowerRune_eq_semicolon c).mp e)
      cases hs : Split cs with
      | nil => exact absurd hs (Split_ne_nil cs)
      | cons piece pieces =>
        simp [ToLower, Split, hc, hc2, ih2, hs]

theorem TrimSpace_ToLower (s : List Char) : TrimSpace (ToLower s) = ToLower (TrimSpace s) := by
  have hf : isSpace ∘ toLowerRune = isSpace := funext isSpace_toLowerRune
  simp only [TrimSpace, ToLower, List.rdropWhile, List.dropWhile_map, hf, ← List.map_reverse]

/-- The directive loop looks at the pieces only through their lower case. -/
theorem parseParts_congr (ps qs : List (List Char)) (h : HSTSHeader)
    (hl : ps.map ToLower = qs.map ToLower) : parseParts h ps = parseParts h qs := by
  induction ps generalizing qs h with
  | nil =>
    cases qs with
    | nil => rfl
    | cons q qs => simp at hl
  | cons p ps ih =>
    cases qs with
    | nil => simp at hl
    | cons q qs =>
      simp only [List.map_cons, List.cons.injEq] at hl
      obtain ⟨hp, hrest⟩ := hl
      simp only [parseParts, hp, ih qs _ hrest]

/-- Lowering the whole header before parsing changes nothing. -/
theorem ParseHeaderString_ToLower (s : List Char) :
    ParseHeaderString (ToLower s) = ParseHeaderString s := by
  unfold ParseHeaderString
  apply parseParts_congr
  simp only [Split_ToLower, List.map_map]
  apply List.map_congr_left
  intro p _
  simp only [Function.comp, TrimSpace_ToLower, ToLower_idem]

theorem toLowerRune_sameUpToCase (a b : Char) (h : sameUpToCase a b) :
    toLowerRune a = toLowerRune b := by
  apply char_eq_of_toNat_eq
  rw [toNat_toLowerRune a, toNat_toLowerRune b]
  rcases h with h | ⟨h1, h2, h3⟩ | ⟨h1, h2, h3⟩
  · subst h; rfl
  · split_ifs <;> omega
  · split_ifs <;> omega

theorem ToLower_sameUpToCase (s t : List Char) (h : List.Forall₂ sameUpToCase s t) :
    ToLower s = ToLower t := by
  induction h with
  | nil => rfl
  | cons hab _ ih =>
    simp only [ToLower, List.map_cons] at ih ⊢
    rw [toLowerRune_sameUpToCase _ _ hab, ih]

/-- C6: changing the case of any ASCII letters of a header does not change
what `ParseHeaderString` returns, in particular not the record (the same
`preload`, `includeSubDomains` and max-age). -/
theorem ParseHeaderString_case_insensitive (s t : List Char)
    (h : List.Forall₂ sameUpToCase s t) :
    ParseHeaderString s = ParseHeaderString t := by
  rw [← ParseHeaderString_ToLower s, ← ParseHeaderString_ToLower t, ToLower_sameUpToCase s t h]

theorem ParseHeaderString_case_insensitive_witness :
    ParseHeaderString "PRELOAD; INCLUDESUBDOMAINS; MAX-AGE=10886400".toList =
      ParseHeaderString "preload; includeSubDomains; max-age=10886400".toList :=
  ParseHeaderString_case_insensitive _ _ (by decide)

/-! ## The directive loop, step by step and over a concatenation -/

theorem sliceFrom_of_HasPrefix (s : List Char)
    (h : HasPrefix s "max-age=".toList = true) : sliceFrom s 8 = some (s.drop 8) := by
  simp only [HasPrefix, List.isPrefixOf_iff_prefix] at h
  have hlen := h.length_le
  have e : "max-age=".toList.length = 8 := rfl
  rw [e] at hlen
  simp [sliceFrom, hlen]

/-- The body of the directive loop, with the slice resolved: the guard
`HasPrefix(part, "max-age=")` makes `part[8:]` well defined. -/
theorem parseParts_cons (h : HSTSHeader) (part : List Char) (rest : List (List Char)) :
    parseParts h (part :: rest) =
      if ToLower part = "preload".toList then
        parseParts { h with preload := true } rest
      else if ToLower part = "includesubdomains".toList then
        parseParts { h with includeSubDomains := true } rest
      else if HasPrefix (ToLower part) "max-age=".toList = true then
        match ParseUint ((ToLower part).drop 8) with
        | none => some { header := h, err := some (couldNotParse ((ToLower part).drop 8)) }
        | some maxAge =>
          parseParts { h with maxAgePresent := true, maxAgeSeconds := maxAge } rest
      else if HasPrefix (ToLower part) "max-age".toList = true then
        some { header := h,
               err := some "The max-age directive name is present without a value." }
      else parseParts h rest := by
  by_cases hpre : HasPrefix (ToLower part) "max-age=".toList = true
  · simp only [parseParts, hpre, sliceFrom_of_HasPrefix _ hpre, couldNotParse]
  · simp only [parseParts, hpre, Bool.false_eq_true, if_false]

/-- The parser never panics: the directive loop always returns. -/
theorem parseParts_isSome (ps : List (List Char)) (h : HSTSHeader) :
    ∃ r, parseParts h ps = some r := by
  induction ps generalizing h with
  | nil => exact ⟨_, parseParts_nil h⟩
  | cons p ps ih =>
    rw [parseParts_cons]
    split_ifs
    · exact ih _
    · exact ih _
    · cases ParseUint ((ToLower p).drop 8) with
      | none => exact ⟨_, rfl⟩
      | some n => exact ih _
    · exact ⟨_, rfl⟩
    · exact ih _

/-- Running the loop over `ps ++ qs`: the loop over `ps` first; when it
returned an error that is the result, otherwise the loop goes on over `qs`
from the header reached. -/
theorem parseParts_append (ps qs : List (List Char)) (h : HSTSHeader) :
    parseParts h (ps ++ qs) =
      match parseParts h ps with
      | none => none
      | some r =>
        match r.err with
        | some _ => some r
        | none => parseParts r.header qs := by
  induction ps generalizing h with
  | nil => simp [parseParts_nil]
  | cons p ps ih =>
    rw [List.cons_append, parseParts_cons, parseParts_cons]
    split_ifs
    · exact ih _
    · exact ih _
    · cases ParseUint ((ToLower p).drop 8) with
      | none => rfl
      | some n => exact ih _
    · rfl
    · exact ih _

theorem isAsciiDigit_toLowerRune (c : Char) :
    isAsciiDigit (toLowerRune c) = isAsciiDigit c := by
  simp only [isAsciiDigit, toNat_toLowerRune c]
  split_ifs with h1 h2 h3
  · rw [decide_eq_decide]; omega
  · rw [decide_eq_decide]; omega
  · rw [decide_eq_decide]; omega
  · rfl

theorem digitVal_nondigit (d : Char) (hd : ¬ isAsciiDigit d = true) :
    digitVal d = none ∨ ∃ v, digitVal d = some v ∧ 10 ≤ v := by
  simp only [isAsciiDigit, decide_eq_true_eq] at hd
  by_cases h2 : 97 ≤ d.toNat ∧ d.toNat ≤ 122
  · exact Or.inr ⟨d.toNat - 97 + 10, by simp [digitVal, hd, h2], by omega⟩
  · by_cases h3 : 65 ≤ d.toNat ∧ d.toNat ≤ 90
    · exact Or.inr ⟨d.toNat - 65 + 10, by simp [digitVal, hd, h2, h3], by omega⟩
    · exact Or.inl (by simp [digitVal, hd, h2, h3])

theorem parseUintLoop_nondigit (v : List Char) (n : Nat)
    (h : ∃ c ∈ v, isAsciiDigit c = false) : parseUintLoop n v = none := by
  induction v generalizing n with
  | nil => obtain ⟨c, hc, _⟩ := h; simp at hc
  | cons d ds ih =>
    rw [parseUintLoop]
    by_cases hd : isAsciiDigit d = true
    · have htail : ∃ c ∈ ds, isAsciiDigit c = false := by
        obtain ⟨c, hc, hcd⟩ := h
        rcases List.mem_cons.mp hc with e | e
        · subst e; rw [hd] at hcd; exact absurd hcd (by decide)
        · exact ⟨c, e, hcd⟩
      rw [digitVal_of_digit d hd]
      simp only []
      split_ifs
      · rfl
      · rfl
      · rfl
      · exact ih _ htail
    · rcases digitVal_nondigit d hd with e | ⟨v, e, hv⟩
      · rw [e]
      · rw [e]
        simp only [hv, if_true]

/-- A value with a rune that is not a decimal digit does not parse. -/
theorem ParseUint_nondigit (v : List Char) (h : ∃ c ∈ v, isAsciiDigit c = false) :
    ParseUint v = none := by
  unfold ParseUint
  split_ifs
  · rfl
  · exact parseUintLoop_nondigit v 0 h

/-- Parsing `p ++ ";" ++ q`: the result for `p` when that is an error, and
otherwise the loop over the pieces of `q` from the header `p` gave. -/
theorem ParseHeaderString_append_sep (p q : List Char) :
    ParseHeaderString (p ++ ';' :: q) =
      match ParseHeaderString p with
      | none => none
      | some r =>
        match r.err with
        | some _ => some r
        | none => parseParts r.header ((Split q).map TrimSpace) := by
  simp only [ParseHeaderString, Split_append_sep, List.map_append, parseParts_append]

/-- C3: on `includeSubDomains; preload; max-age` the parser returns the error
for the max-age without a value, and `CheckHeader` on the header it returns
gives the missing max-age error; `CheckHeaderString` returns neither: its only
error is the fixed text `Error parsing HSTS header.`, so the parse error is
replaced and the check error is dropped. -/
theorem CheckHeaderString_maxAge_without_value :
    ParseHeaderString "includeSubDomains; preload; max-age".toList =
      some { header := { preload := true, includeSubDomains := true,
                         maxAgePresent := false, maxAgeSeconds := BOGUS_MAX_AGE },
             err := some "The max-age directive name is present without a value." } ∧
    CheckHeader { preload := true, includeSubDomains := true, maxAgePresent := false,
                  maxAgeSeconds := BOGUS_MAX_AGE } =
      some "Must have the `max-age` directive." ∧
    CheckHeaderString "includeSubDomains; preload; max-age".toList =
      some (some "Error parsing HSTS header.") := by
  refine ⟨by decide, by decide, by decide⟩

/-- C4: on `max-age; preload` the second piece is the directive `preload`,
yet the header returned has `preload` false: the loop returned at the
max-age without a value and never looked at the pieces after it. -/
theorem ParseHeaderString_stops_at_bad_maxAge :
    "preload".toList ∈
      (Split "max-age; preload".toList).map (fun t => ToLower (TrimSpace t)) ∧
    ParseHeaderString "max-age; preload".toList =
      some { header := { preload := false, includeSubDomains := false,
                         maxAgePresent := false, maxAgeSeconds := BOGUS_MAX_AGE },
             err := some "The max-age directive name is present without a value." } := by
  refine ⟨by decide, by decide⟩

/-- C5: the initial header misses all three requirements, and `CheckHeader`
returns one error only, the one for `includeSubDomains`; with
`includeSubDomains` set it returns only the one for `preload`. -/
theorem CheckHeader_first_error_only :
    CheckHeader initialHeader = some "Must have the `includeSubDomains` directive." ∧
    CheckHeader { initialHeader with includeSubDomains := true } =
      some "Must have the `preload` directive." := by
  refine ⟨by decide, by decide⟩

/-- C9: on the single token `max-age` the parser returns one error and leaves
the max-age not present, but the text of the error is
`The max-age directive name is present without a value.` -/
theorem ParseHeaderString_maxAge_no_value :
    ParseHeaderString "max-age".toList =
      some { header := initialHeader,
             err := some "The max-age directive name is present without a value." } ∧
    "The max-age directive name is present without a value." ≠
      "A max-age directive name is present without an associated value." := by
  refine ⟨by decide, by decide⟩

/-- C10: on the empty header the parser returns the initial header and a nil
error, and nothing else: the result has no place for a warning. -/
theorem ParseHeaderString_empty :
    ParseHeaderString [] = some { header := initialHeader, err := none } := by
  decide

/-! ## What `CheckHeader` returns for a max-age out of range -/

/-- C11: for the header with both flags set and a max-age of 31536001
seconds, one second more than a year, `CheckHeader` returns `nil`; the value
it returns is its only output, so nothing about the length of the max-age is
reported. -/
theorem CheckHeader_more_than_one_year :
    CheckHeader { preload := true, includeSubDomains := true, maxAgePresent := true,
                  maxAgeSeconds := 31536001 } = none ∧
    CheckHeaderString "max-age=31536001; preload; includeSubDomains".toList = some none := by
  refine ⟨by decide, by decide⟩

/-- C12: for the header with both flags set and a max-age of 100 seconds
`CheckHeader` returns one error, whose text ends in
`(== 18 weeks). The header had max-age=100` and is not the text
`..., but the header only had max-age=100.` -/
theorem CheckHeader_maxAge_100 :
    CheckHeader { preload := true, includeSubDomains := true, maxAgePresent := true,
                  maxAgeSeconds := 100 } =
      some ("The max-age must be at least 10886400 seconds (== 18 weeks). " ++
        "The header had max-age=100") ∧
    ("The max-age must be at least 10886400 seconds (== 18 weeks). " ++
        "The header had max-age=100") ≠
      "The max-age must be at least 10886400 seconds (== 18 weeks), " ++
        "but the header only had max-age=100." := by
  refine ⟨by decide, by decide⟩

/-! ## The parser always returns -/

theorem sliceFromBytes_of_HasPrefixBytes (s : List Nat)
    (h : HasPrefixBytes s (asciiBytes "max-age=") = true) :
    8 ≤ s.length ∧ sliceFromBytes s 8 = some (s.drop 8) := by
  simp only [HasPrefixBytes, List.isPrefixOf_iff_prefix] at h
  have hlen := h.length_le
  have e : (asciiBytes "max-age=").length = 8 := rfl
  rw [e] at hlen
  exact ⟨hlen, by simp [sliceFromBytes, hlen]⟩

/-- The directive loop on byte strings always returns, whatever `toLower`
gives back. -/
theorem parsePartsBytes_isSome (toLower : List Nat → List Nat) (ps : List (List Nat))
    (h : HSTSHeader) : ∃ r, parsePartsBytes toLower h ps = some r := by
  induction ps generalizing h with
  | nil => exact ⟨{ header := h, err := none }, by simp [parsePartsBytes]⟩
  | cons p ps ih =>
    simp only [parsePartsBytes]
    split_ifs with h1 h2 h3 h4
    · exact ih _
    · exact ih _
    · rw [(sliceFromBytes_of_HasPrefixBytes _ h3).2]
      simp only []
      cases hpu : ParseUintBytes ((toLower p).drop 8) with
      | none => exact ⟨_, rfl⟩
      | some n => exact ih _
    · exact ⟨_, rfl⟩
    · exact ih _

/-- C14: `ParseHeaderString` never panics.  On byte strings: for every byte
sequence, and whatever `strings.TrimSpace` and `strings.ToLower` return for
the pieces, the parser returns a header together with its error value; the
loop returns over every list of pieces, however short they are; and a piece
that passes the guard `HasPrefix(part, "max-age=")` has at least 8 bytes, so
the slice `part[8:]` at byte offset 8 is in range.  The header `max-age=`
followed by the byte `0xff`, which lower-casing makes longer, is an example.
The same holds of the parser on rune sequences. -/
theorem ParseHeaderString_never_panics :
    (∀ (trimSpace toLower : List Nat → List Nat) (s : List Nat),
      ∃ r, ParseHeaderStringBytes trimSpace toLower s = some r) ∧
    (∀ (toLower : List Nat → List Nat) (h : HSTSHeader) (ps : List (List Nat)),
      ∃ r, parsePartsBytes toLower h ps = some r) ∧
    (∀ part : List Nat, HasPrefixBytes part (asciiBytes "max-age=") = true →
      8 ≤ part.length ∧ sliceFromBytes part 8 = some (part.drop 8)) ∧
    ParseHeaderStringBytes (fun s => s) replaceIllFormed (asciiBytes "max-age=" ++ [255]) =
      some { header := initialHeader,
             err := some (asciiBytes "Could not parse max-age value [" ++ [239, 191, 189] ++
               asciiBytes "].") } ∧
    ParseHeaderStringBytes (fun s => s) (fun s => s.take 3) (asciiBytes "max-age=1") =
      some { header := initialHeader, err := none } ∧
    (∀ s : List Char, ∃ r, ParseHeaderString s = some r) ∧
    (∀ (h : HSTSHeader) (ps : List (List Char)), ∃ r, parseParts h ps = some r) ∧
    (∀ part : List Char, HasPrefix part "max-age=".toList = true →
      8 ≤ part.length ∧ sliceFrom part 8 = some (part.drop 8)) ∧
    ParseHeaderString "max".toList = some { header := initialHeader, err := none } ∧
    ParseHeaderString "m\u00e4x-age=\u00e9;\u212a".toList =
      some { header := initialHeader, err := none } := by
  refine ⟨fun trimSpace toLower s => parsePartsBytes_isSome _ _ _,
    fun toLower h ps => parsePartsBytes_isSome toLower ps h,
    sliceFromBytes_of_HasPrefixBytes, by decide, by decide,
    fun s => parseParts_isSome _ _, fun h ps => parseParts_isSome ps h, ?_,
    by decide, by decide⟩
  intro part hp
  have hs := sliceFrom_of_HasPrefix part hp
  refine ⟨?_, hs⟩
  simp only [HasPrefix, List.isPrefixOf_iff_prefix] at hp
  exact hp.length_le

/-! ## `CheckHeaderString` in terms of the parser and the check -/

/-- C20: for every header `s` the parser returns some result `r`;
`CheckHeaderString s` returns `nil` exactly when `r` has no error and
`CheckHeader` on the header of `r` returns `nil`; and whenever `r` has an
error, `CheckHeaderString s` returns the fixed error
`Error parsing HSTS header.`, whatever `s` and the header of `r` are. -/
theorem CheckHeaderString_spec (s : List Char) :
    ∃ r, ParseHeaderString s = some r ∧
      (CheckHeaderString s = some none ↔ (r.err = none ∧ CheckHeader r.header = none)) ∧
      (r.err ≠ none → CheckHeaderString s = some (some "Error parsing HSTS header.")) ∧
      (r.err = none → CheckHeaderString s = some (CheckHeader r.header)) := by
  obtain ⟨r, hr⟩ := parseParts_isSome ((Split s).map TrimSpace) initialHeader
  have hp : ParseHeaderString s = some r := hr
  refine ⟨r, hp, ?_, ?_, ?_⟩
  · obtain ⟨hdr, err⟩ := r
    cases err with
    | none => simp [CheckHeaderString, hp]
    | some e => simp [CheckHeaderString, hp]
  · intro hne
    obtain ⟨hdr, err⟩ := r
    cases err with
    | none => exact absurd rfl hne
    | some e => simp [CheckHeaderString, hp]
  · intro he
    obtain ⟨hdr, err⟩ := r
    cases err with
    | none => simp [CheckHeaderString, hp]
    | some e => simp at he

/-! ## What `ParseUint` accepts -/

theorem parseUintLoop_overflow (ds : List Char) (n : Nat) (hd : isDigits ds = true)
    (hn : n < 2 ^ 63)
    (hv : 2 ^ 63 ≤ ds.foldl (fun n c => 10 * n + (c.toNat - 48)) n) :
    parseUintLoop n ds = none := by
  induction ds generalizing n with
  | nil => simp only [List.foldl_nil] at hv; omega
  | cons d ds ih =>
    simp only [isDigits, List.all_cons, Bool.and_eq_true] at hd
    obtain ⟨hd1, hd2⟩ := hd
    have hdig := hd1
    simp only [isAsciiDigit, decide_eq_true_eq] at hdig
    simp only [List.foldl_cons] at hv
    rw [parseUintLoop, digitVal_of_digit d hd1]
    have h1 : ¬ (10 ≤ d.toNat - 48) := by omega
    simp only [h1, if_false]
    by_cases h2 : cutoff ≤ n
    · simp only [h2, if_true]
    · simp only [h2, if_false]
      have h2b : n < (2 ^ 64 - 1) / 10 + 1 := by simpa [cutoff] using h2
      have h3 : (n * 10) % 2 ^ 64 = n * 10 := Nat.mod_eq_of_lt (by omega)
      rw [h3]
      by_cases h4 : 2 ^ 64 ≤ n * 10 + (d.toNat - 48)
      · have h5 : (n * 10 + (d.toNat - 48)) % 2 ^ 64 < n * 10 := by omega
        simp only [h5, true_or, if_true]
      · have h5 : (n * 10 + (d.toNat - 48)) % 2 ^ 64 = 10 * n + (d.toNat - 48) := by
          rw [Nat.mod_eq_of_lt (by omega)]; omega
        rw [h5]
        by_cases h6 : maxVal < 10 * n + (d.toNat - 48)
        · simp only [h6, or_true, if_true]
        · have h7 : ¬ (10 * n + (d.toNat - 48) < n * 10) := by omega
          simp only [h6, h7, or_self, if_false]
          exact ih _ hd2 (by simp only [maxVal] at h6; omega) hv

theorem ParseUint_of_valid (v : List Char) (h : validValue v = true) :
    ParseUint v = some (decimalValue v) := by
  simp only [validValue, Bool.and_eq_true, Bool.not_eq_true', List.isEmpty_eq_false,
    decide_eq_true_eq] at h
  exact ParseUint_digits v h.1.1 h.1.2 h.2

theorem ParseUint_of_invalid (v : List Char) (h : validValue v = false) :
    ParseUint v = none := by
  by_cases hne : v = []
  · subst hne; rfl
  · by_cases hd : isDigits v = true
    · have hv : ¬ decimalValue v < 2 ^ 63 := by
        intro hlt
        have : validValue v = true := by
          simp [validValue, hne, hd]
          omega
        rw [h] at this; exact absurd this (by decide)
      have hlen : ¬ (v.length < 1) := by
        cases v with
        | nil => exact absurd rfl hne
        | cons a t => simp
      simp only [ParseUint, hlen, if_false]
      exact parseUintLoop_overflow v 0 hd (by omega) (by simp only [decimalValue] at hv; omega)
    · apply ParseUint_nondigit
      simp only [isDigits, List.all_eq_true, not_forall, Bool.not_eq_true] at hd
      obtain ⟨c, hc, hcd⟩ := hd
      exact ⟨c, hc, hcd⟩

/-- The library function accepts exactly the valid values. -/
theorem ParseUint_eq (v : List Char) :
    ParseUint v = if validValue v = true then some (decimalValue v) else none := by
  by_cases h : validValue v = true
  · simp only [h, if_true]; exact ParseUint_of_valid v h
  · simp only [h, if_false]
    exact ParseUint_of_invalid v (by simpa using h)

theorem isDigits_ToLower (v : List Char) : isDigits (ToLower v) = isDigits v := by
  induction v with
  | nil => rfl
  | cons c cs ih =>
    simp only [isDigits, ToLower, List.map_cons, List.all_cons] at ih ⊢
    rw [isAsciiDigit_toLowerRune, ih]

theorem validValue_ToLower (v : List Char) : validValue (ToLower v) = validValue v := by
  by_cases hd : isDigits v = true
  · rw [ToLower_digits v hd]
  · have h1 : isDigits v = false := by simpa using hd
    have h2 : isDigits (ToLower v) = false := by rw [isDigits_ToLower, h1]
    simp [validValue, h1, h2]

theorem validValue_iff (v : List Char) :
    validValue v = true ↔ (v ≠ [] ∧ isDigits v = true ∧ decimalValue v ≤ 2 ^ 63 - 1) := by
  simp only [validValue, Bool.and_eq_true, Bool.not_eq_eq_eq_not, Bool.not_true,
    List.isEmpty_eq_false, decide_eq_true_eq]
  constructor
  · rintro ⟨⟨h1, h2⟩, h3⟩
    exact ⟨h1, h2, by omega⟩
  · rintro ⟨h1, h2, h3⟩
    exact ⟨⟨h1, h2⟩, by omega⟩

/-- A `max-age=` directive without white space and without a semicolon is
parsed as one piece whose value is the lower case of what follows the `=`. -/
theorem ParseHeaderString_maxAgeDirective (V : List Char) (hsemi : ';' ∉ V)
    (hsp : ∀ c ∈ V, isSpace c = false) :
    ParseHeaderString ("max-age=".toList ++ V) =
      if validValue V = true then
        some { header := { preload := false, includeSubDomains := false,
                           maxAgePresent := true, maxAgeSeconds := decimalValue V },
               err := none }
      else some { header := initialHeader, err := some (couldNotParse (ToLower V)) } := by
  have hmem : ';' ∉ "max-age=".toList ++ V := by
    intro hc
    rcases List.mem_append.mp hc with hc | hc
    · exact absurd hc (by decide)
    · exact hsemi hc
  have hall : ∀ c ∈ 'm' :: ("ax-age=".toList ++ V), isSpace c = false := by
    intro c hc
    have hc2 : c ∈ "max-age=".toList ++ V := hc
    rcases List.mem_append.mp hc2 with hc3 | hc3
    · have hfix : ∀ x ∈ "max-age=".toList, isSpace x = false := by decide
      exact hfix c hc3
    · exact hsp c hc3
  have ht : TrimSpace ("max-age=".toList ++ V) = "max-age=".toList ++ V :=
    TrimSpace_eq_self _ _ (by decide) (hall _ (List.getLast_mem _))
  have hl : ToLower ("max-age=".toList ++ V) = maxAgeDirective (ToLower V) := by
    simp only [ToLower, maxAgeDirective, List.map_append]
    rfl
  simp only [ParseHeaderString, Split_of_not_mem _ hmem, List.map_cons, List.map_nil, ht]
  rw [parseParts_maxAge _ _ (ToLower V) _ hl, ParseUint_eq, validValue_ToLower]
  by_cases hv : validValue V = true
  · have hd : isDigits V = true := ((validValue_iff V).mp hv).2.1
    simp only [hv, if_true, ToLower_digits V hd, parseParts_nil, initialHeader]
  · simp only [hv, if_false, Bool.false_eq_true]

/-- C18: for every string `V` without a semicolon and without white space,
`ParseHeaderString` applied to `max-age=` followed by `V` returns a nil error
exactly when `V` is non-empty, consists of ASCII digits only and has a decimal
value of at most `2 ^ 63 - 1`; in that case the max-age is present and equal to
that value, and otherwise the header returned is the initial one, with the
max-age not present. -/
theorem ParseHeaderString_maxAge_accepts_iff (V : List Char) (hsemi : ';' ∉ V)
    (hsp : ∀ c ∈ V, isSpace c = false) :
    ∃ r, ParseHeaderString ("max-age=".toList ++ V) = some r ∧
      (r.err = none ↔ (V ≠ [] ∧ isDigits V = true ∧ decimalValue V ≤ 2 ^ 63 - 1)) ∧
      (r.err = none → r.header.maxAgePresent = true ∧
        r.header.maxAgeSeconds = decimalValue V) ∧
      (r.err ≠ none → r.header = initialHeader) := by
  rw [ParseHeaderString_maxAgeDirective V hsemi hsp]
  by_cases hv : validValue V = true
  · simp only [hv, if_true]
    exact ⟨_, rfl, ⟨fun _ => (validValue_iff V).mp hv, fun _ => rfl⟩,
      fun _ => ⟨rfl, rfl⟩, fun h => absurd rfl h⟩
  · simp only [hv, if_false]
    refine ⟨_, rfl, ⟨fun h => ?_, fun h => absurd ((validValue_iff V).mpr h) hv⟩,
      fun h => ?_, fun _ => rfl⟩
    · simp at h
    · simp at h

theorem ParseHeaderString_maxAge_accepts_iff_witness :
    (∃ r, ParseHeaderString ("max-age=".toList ++ "9223372036854775808".toList) = some r ∧
      (r.err = none ↔ ("9223372036854775808".toList ≠ [] ∧
        isDigits "9223372036854775808".toList = true ∧
        decimalValue "9223372036854775808".toList ≤ 2 ^ 63 - 1)) ∧
      (r.err = none → r.header.maxAgePresent = true ∧
        r.header.maxAgeSeconds = decimalValue "9223372036854775808".toList) ∧
      (r.err ≠ none → r.header = initialHeader)) ∧
    ParseHeaderString "max-age=9223372036854775808".toList =
      some { header := initialHeader,
             err := some "Could not parse max-age value [9223372036854775808]." } ∧
    ParseHeaderString "max-age=".toList =
      some { header := initialHeader, err := some "Could not parse max-age value []." } ∧
    ParseHeaderString "max-age=9223372036854775807".toList =
      some { header := { preload := false, includeSubDomains := false,
                         maxAgePresent := true, maxAgeSeconds := 9223372036854775807 },
             err := none } ∧
    ParseHeaderString "max-age=0012".toList =
      some { header := { preload := false, includeSubDomains := false,
                         maxAgePresent := true, maxAgeSeconds := 12 },
             err := none } :=
  ⟨ParseHeaderString_maxAge_accepts_iff "9223372036854775808".toList (by decide) (by decide),
    by decide, by decide, by decide, by decide⟩

/-! ## The record returned with an error -/

/-- The loop returns at a malformed max-age piece, with the header it had. -/
theorem parseParts_malformed (h : HSTSHeader) (part : List Char) (rest : List (List Char))
    (hp : HasPrefix (ToLower part) "max-age".toList = true)
    (hbad : ¬ (HasPrefix (ToLower part) "max-age=".toList = true ∧
      validValue (part.drop 8) = true)) :
    ∃ e, parseParts h (part :: rest) = some { header := h, err := some e } := by
  by_cases hpre : HasPrefix (ToLower part) "max-age=".toList = true
  · have hinv : validValue (part.drop 8) = false := by
      cases hv : validValue (part.drop 8)
      · rfl
      · exact absurd ⟨hpre, hv⟩ hbad
    have h1 : ToLower part ≠ "preload".toList := by
      intro e; rw [e] at hpre; exact absurd hpre (by decide)
    have h2 : ToLower part ≠ "includesubdomains".toList := by
      intro e; rw [e] at hpre; exact absurd hpre (by decide)
    have hdrop : (ToLower part).drop 8 = ToLower (part.drop 8) := by
      simp [ToLower, List.map_drop]
    have hnone : ParseUint (ToLower (part.drop 8)) = none := by
      apply ParseUint_of_invalid
      rw [validValue_ToLower, hinv]
    rw [parseParts_cons]
    simp only [h1, h2, hpre, if_false, if_true, hdrop, hnone]
    exact ⟨_, rfl⟩
  · exact ⟨_, parseParts_noValue h part rest hp (by simpa using hpre)⟩

/-- C19: when parsing `p` reports no error and returns the header `h0`, then
for every malformed max-age token `b` without a semicolon and every string
`q`, parsing `p`, a semicolon, `b`, a semicolon and `q` reports an error and
returns exactly the header `h0`: nothing at or after the malformed directive
has any influence on the record returned. -/
theorem ParseHeaderString_error_record (p b q : List Char) (h0 : HSTSHeader)
    (hp : ParseHeaderString p = some { header := h0, err := none })
    (hsemi : ';' ∉ b) (hbad : malformedMaxAge b = true) :
    ∃ e, ParseHeaderString (p ++ ';' :: (b ++ ';' :: q)) =
      some { header := h0, err := some e } := by
  simp only [malformedMaxAge, Bool.and_eq_true, Bool.not_eq_eq_eq_not, Bool.not_true,
    Bool.and_eq_false_iff] at hbad
  obtain ⟨hpre, hnot⟩ := hbad
  rw [ParseHeaderString_append_sep, hp]
  simp only [Split_append_sep, Split_of_not_mem b hsemi, List.singleton_append, List.map_cons]
  apply parseParts_malformed _ _ _ hpre
  rintro ⟨h1, h2⟩
  rcases hnot with hn | hn
  · rw [h1] at hn; exact absurd hn (by decide)
  · rw [h2] at hn; exact absurd hn (by decide)

theorem ParseHeaderString_error_record_witness :
    ∃ e, ParseHeaderString
        ("preload".toList ++ ';' :: (" max-age=-1".toList ++ ';' :: " includeSubDomains".toList)) =
      some { header := { preload := true, includeSubDomains := false,
                         maxAgePresent := false, maxAgeSeconds := BOGUS_MAX_AGE },
             err := some e } :=
  ParseHeaderString_error_record "preload".toList " max-age=-1".toList
    " includeSubDomains".toList _ (by decide) (by decide) (by decide)

/-! ## The record invariant -/

theorem Split_head_prefix (s : List Char) :
    ∀ piece pieces, Split s = piece :: pieces →
      piece <+: s ∧ ∀ p ∈ pieces, p <:+: s := by
  induction s with
  | nil =>
    intro piece pieces h
    simp only [Split, List.cons.injEq] at h
    obtain ⟨h1, h2⟩ := h
    subst h1 h2
    exact ⟨List.prefix_refl _, fun p hp => absurd hp (List.not_mem_nil p)⟩
  | cons c cs ih =>
    intro piece pieces h
    by_cases hc : c = ';'
    · simp only [Split, hc, if_true, List.cons.injEq] at h
      obtain ⟨h1, h2⟩ := h
      subst h1 h2
      refine ⟨List.nil_prefix, fun p hp => ?_⟩
      cases hs : Split cs with
      | nil => exact absurd hs (Split_ne_nil cs)
      | cons q qs =>
        obtain ⟨hq, hqs⟩ := ih q qs hs
        rw [hs] at hp
        rcases List.mem_cons.mp hp with e | e
        · subst e; exact List.infix_cons hq.isInfix
        · exact List.infix_cons (hqs p e)
    · cases hs : Split cs with
      | nil => exact absurd hs (Split_ne_nil cs)
      | cons q qs =>
        obtain ⟨hq, hqs⟩ := ih q qs hs
        simp only [Split, hc, if_false, hs, List.cons.injEq] at h
        obtain ⟨h1, h2⟩ := h
        subst h1 h2
        exact ⟨(List.prefix_cons_inj c).mpr hq, fun p hp => List.infix_cons (hqs p hp)⟩

/-- Every piece of a header stands in the header. -/
theorem Split_mem_isInfix_header (s p : List Char) (hp : p ∈ Split s) : p <:+: s := by
  cases hs : Split s with
  | nil => exact absurd hs (Split_ne_nil s)
  | cons q qs =>
    obtain ⟨hq, hqs⟩ := Split_head_prefix s q qs hs
    rw [hs] at hp
    rcases List.mem_cons.mp hp with e | e
    · subst e; exact hq.isInfix
    · exact hqs p e

theorem TrimSpace_isInfix_piece (p : List Char) : TrimSpace p <:+: p :=
  (List.rdropWhile_prefix isSpace _).isInfix.trans (List.dropWhile_suffix isSpace).isInfix

theorem maxAgeInvariant_flags (s : List Char) (h : HSTSHeader) (a b : Bool)
    (hi : maxAgeInvariant s h) :
    maxAgeInvariant s { h with preload := a, includeSubDomains := b } := hi

/-- The directive loop keeps the record invariant. -/
theorem parseParts_invariant (s : List Char) (ps : List (List Char)) (h : HSTSHeader)
    (hps : ∀ p ∈ ps, p <:+: s) (hi : maxAgeInvariant s h) :
    ∃ r, parseParts h ps = some r ∧ maxAgeInvariant s r.header := by
  induction ps generalizing h with
  | nil => exact ⟨_, parseParts_nil h, hi⟩
  | cons p ps ih =>
    have hrest : ∀ q ∈ ps, q <:+: s := fun q hq => hps q (List.mem_cons_of_mem _ hq)
    rw [parseParts_cons]
    split_ifs with h1 h2 h3 h4
    · exact ih _ hrest hi
    · exact ih _ hrest hi
    · have hdrop : (ToLower p).drop 8 = ToLower (p.drop 8) := by
        simp [ToLower, List.map_drop]
      rw [hdrop, ParseUint_eq, validValue_ToLower]
      by_cases hv : validValue (p.drop 8) = true
      · obtain ⟨hne, hd, hle⟩ := (validValue_iff _).mp hv
        simp only [hv, if_true, ToLower_digits _ hd]
        apply ih _ hrest
        refine Or.inr ⟨rfl, by simp only []; omega, p.drop 8, hne, hd, ?_, rfl⟩
        exact (List.drop_suffix 8 p).isInfix.trans (hps p (List.mem_cons_self _ _))
      · simp only [hv, if_false, Bool.false_eq_true]
        exact ⟨_, rfl, hi⟩
    · exact ⟨_, rfl, hi⟩
    · exact ih _ hrest hi

/-- C13: for every input the parser returns a result, with or without an
error, whose header satisfies the record invariant: either the max-age is not
present and `maxAgeSeconds` holds `BOGUS_MAX_AGE`, or the max-age is present,
its value is below `2 ^ 63` (and, being a natural number, not negative), and
it is the decimal value of a non-empty string of ASCII digits, without a
sign, that stands in the input. -/
theorem ParseHeaderString_invariant (s : List Char) :
    ∃ r, ParseHeaderString s = some r ∧ maxAgeInvariant s r.header := by
  apply parseParts_invariant
  · intro p hp
    obtain ⟨q, hq, rfl⟩ := List.mem_map.mp hp
    exact (TrimSpace_isInfix_piece q).trans (Split_mem_isInfix_header s q hq)
  · exact Or.inl ⟨rfl, rfl⟩

/-! ## Repeated max-age directives -/

theorem getLast?_cons_eq (v : List Char) (l : List (List Char)) :
    (v :: l).getLast? = some (match l.getLast? with | none => v | some w => w) := by
  cases l with
  | nil => rfl
  | cons w l =>
    rw [List.getLast?_cons_cons]
    cases h : (w :: l).getLast? with
    | none => simp at h
    | some x => rfl

/-- The loop over pieces whose max-age directives are all valid: no error,
and the max-age of the last of them, or the one the loop started with. -/
theorem parseParts_lastWins (ps : List (List Char)) (h : HSTSHeader)
    (hall : ∀ p ∈ ps, HasPrefix (ToLower p) "max-age".toList = true →
      HasPrefix (ToLower p) "max-age=".toList = true ∧
        validValue ((ToLower p).drop 8) = true) :
    ∃ r, parseParts h ps = some r ∧ r.err = none ∧
      (∀ v, ((ps.map ToLower).filterMap maxAgeValue).getLast? = some v →
        r.header.maxAgePresent = true ∧ r.header.maxAgeSeconds = decimalValue v) ∧
      ((ps.map ToLower).filterMap maxAgeValue = [] →
        r.header.maxAgePresent = h.maxAgePresent ∧
          r.header.maxAgeSeconds = h.maxAgeSeconds) := by
  induction ps generalizing h with
  | nil => exact ⟨_, parseParts_nil h, rfl, fun v hv => by simp at hv, fun _ => ⟨rfl, rfl⟩⟩
  | cons p ps ih =>
    have hrest : ∀ q ∈ ps, HasPrefix (ToLower q) "max-age".toList = true →
        HasPrefix (ToLower q) "max-age=".toList = true ∧
          validValue ((ToLower q).drop 8) = true :=
      fun q hq => hall q (List.mem_cons_of_mem _ hq)
    have hp := hall p (List.mem_cons_self _ _)
    by_cases hpre : HasPrefix (ToLower p) "max-age=".toList = true
    · obtain ⟨_, hval⟩ := hp (HasPrefix_maxAgeEq_imp _ hpre)
      have h1 : ToLower p ≠ "preload".toList := by
        intro e; rw [e] at hpre; exact absurd hpre (by decide)
      have h2 : ToLower p ≠ "includesubdomains".toList := by
        intro e; rw [e] at hpre; exact absurd hpre (by decide)
      have hvals : ((p :: ps).map ToLower).filterMap maxAgeValue =
          (ToLower p).drop 8 :: (ps.map ToLower).filterMap maxAgeValue := by
        have hm : maxAgeValue (ToLower p) = some ((ToLower p).drop 8) := by
          simp only [maxAgeValue, hpre, if_true]
        simp only [List.map_cons, List.filterMap_cons, hm]
      rw [parseParts_cons, hvals]
      simp only [h1, h2, hpre, if_false, if_true, ParseUint_of_valid _ hval]
      obtain ⟨r, hr, herr, hlast, hnone⟩ := ih
        { h with maxAgePresent := true, maxAgeSeconds := decimalValue ((ToLower p).drop 8) }
        hrest
      refine ⟨r, hr, herr, ?_, fun hnil => by simp at hnil⟩
      intro v hv
      rw [getLast?_cons_eq] at hv
      cases hl : ((ps.map ToLower).filterMap maxAgeValue).getLast? with
      | none =>
        rw [hl] at hv
        simp only [Option.some.injEq] at hv
        subst hv
        exact hnone (List.getLast?_eq_none_iff.mp hl)
      | some w =>
        rw [hl] at hv
        simp only [Option.some.injEq] at hv
        subst hv
        exact hlast _ hl
    · have hpre2 : HasPrefix (ToLower p) "max-age=".toList = false := by simpa using hpre
      have hno : HasPrefix (ToLower p) "max-age".toList = false := by
        cases hx : HasPrefix (ToLower p) "max-age".toList
        · rfl
        · exact absurd (hp hx).1 hpre
      have hvals : ((p :: ps).map ToLower).filterMap maxAgeValue =
          (ps.map ToLower).filterMap maxAgeValue := by
        have hm : maxAgeValue (ToLower p) = none := by
          simp only [maxAgeValue, hpre2, Bool.false_eq_true, if_false]
        simp only [List.map_cons, List.filterMap_cons, hm]
      rw [parseParts_cons, hvals]
      simp only [hpre2, hno, Bool.false_eq_true, if_false]
      split_ifs
      · exact ih _ hrest
      · exact ih _ hrest
      · exact ih _ hrest

/-- C16: when every directive of a header that starts with `max-age` is
`max-age=` followed by a valid value (digits only, below `2 ^ 63`), the parser
returns no error, and the max-age of the record is present and equal to the
value of the last max-age directive; a header without any max-age directive
leaves the max-age not present. -/
theorem ParseHeaderString_last_maxAge (s : List Char)
    (hall : ∀ t ∈ directives s, HasPrefix t "max-age".toList = true →
      HasPrefix t "max-age=".toList = true ∧ validValue (t.drop 8) = true) :
    ∃ r, ParseHeaderString s = some r ∧ r.err = none ∧
      (∀ v, (maxAgeValues s).getLast? = some v →
        r.header.maxAgePresent = true ∧ r.header.maxAgeSeconds = decimalValue v) ∧
      (maxAgeValues s = [] → r.header.maxAgePresent = false) := by
  have hmap : directives s = ((Split s).map TrimSpace).map ToLower := by
    simp [directives, List.map_map, Function.comp_def]
  have hall2 : ∀ p ∈ (Split s).map TrimSpace,
      HasPrefix (ToLower p) "max-age".toList = true →
        HasPrefix (ToLower p) "max-age=".toList = true ∧
          validValue ((ToLower p).drop 8) = true := by
    intro p hp
    apply hall
    rw [hmap]
    exact List.mem_map_of_mem _ hp
  obtain ⟨r, hr, herr, hlast, hnone⟩ :=
    parseParts_lastWins ((Split s).map TrimSpace) initialHeader hall2
  refine ⟨r, hr, herr, ?_, ?_⟩
  · intro v hv
    apply hlast
    rw [← hmap]
    exact hv
  · intro hnil
    refine (hnone ?_).1
    rw [← hmap]
    exact hnil

theorem ParseHeaderString_last_maxAge_witness :
    (∃ r, ParseHeaderString "max-age=1; max-age=2".toList = some r ∧ r.err = none ∧
      (∀ v, (maxAgeValues "max-age=1; max-age=2".toList).getLast? = some v →
        r.header.maxAgePresent = true ∧ r.header.maxAgeSeconds = decimalValue v) ∧
      (maxAgeValues "max-age=1; max-age=2".toList = [] → r.header.maxAgePresent = false)) ∧
    (maxAgeValues "max-age=1; max-age=2".toList).getLast? = some "2".toList ∧
    ParseHeaderString "max-age=1; max-age=2".toList =
      some { header := { preload := false, includeSubDomains := false,
                         maxAgePresent := true, maxAgeSeconds := 2 },
             err := none } :=
  ⟨ParseHeaderString_last_maxAge "max-age=1; max-age=2".toList (by decide),
    by decide, by decide⟩

/-! ## Tokens the loop ignores -/

theorem unrecognized_of_blank (u : List Char) (h : TrimSpace u = []) :
    unrecognized u = true := by
  simp only [unrecognized, h]
  decide

/-- The loop over a list of pieces does not change when a piece it ignores is
inserted anywhere. -/
theorem parseParts_insert (A B : List (List Char)) (h : HSTSHeader) (u : List Char)
    (h1 : ToLower u ≠ "preload".toList) (h2 : ToLower u ≠ "includesubdomains".toList)
    (h3 : HasPrefix (ToLower u) "max-age".toList = false) :
    parseParts h (A ++ u :: B) = parseParts h (A ++ B) := by
  rw [parseParts_append, parseParts_append A B]
  simp only [parseParts_other _ u B h1 h2 h3]

/-- C17: a token `u` without a semicolon that is blank, or that is
unrecognized (trimmed and in lower case it is neither `preload` nor
`includesubdomains` and does not start with `max-age`), can be inserted as one
more directive before a header, after it, or between two of its parts: the
parser returns the same result, so the same record and no further error. -/
theorem ParseHeaderString_insert_ignored (u : List Char) (hsemi : ';' ∉ u)
    (hu : TrimSpace u = [] ∨ unrecognized u = true) :
    (∀ s : List Char, ParseHeaderString (u ++ ';' :: s) = ParseHeaderString s) ∧
    (∀ s : List Char, ParseHeaderString (s ++ ';' :: u) = ParseHeaderString s) ∧
    (∀ a b : List Char,
      ParseHeaderString (a ++ ';' :: (u ++ ';' :: b)) = ParseHeaderString (a ++ ';' :: b)) := by
  have hun : unrecognized u = true := by
    rcases hu with hb | hb
    · exact unrecognized_of_blank u hb
    · exact hb
  simp only [unrecognized, Bool.and_eq_true, bne_iff_ne, ne_eq, Bool.not_eq_eq_eq_not,
    Bool.not_true] at hun
  obtain ⟨⟨h1, h2⟩, h3⟩ := hun
  have hsu : Split u = [u] := Split_of_not_mem u hsemi
  refine ⟨fun s => ?_, fun s => ?_, fun a b => ?_⟩
  · simp only [ParseHeaderString, Split_append_sep, hsu, List.singleton_append, List.map_cons]
    exact parseParts_insert [] _ _ _ h1 h2 h3
  · simp only [ParseHeaderString, Split_append_sep, hsu, List.map_append, List.map_cons,
      List.map_nil]
    have := parseParts_insert ((Split s).map TrimSpace) [] initialHeader (TrimSpace u) h1 h2 h3
    rw [List.append_nil] at this
    exact this
  · simp only [ParseHeaderString, Split_append_sep, hsu, List.singleton_append,
      List.map_append, List.map_cons]
    exact parseParts_insert _ _ _ _ h1 h2 h3

theorem ParseHeaderString_insert_ignored_witness :
    (∀ s : List Char,
      ParseHeaderString (" extraDirective".toList ++ ';' :: s) = ParseHeaderString s) ∧
    (∀ s : List Char,
      ParseHeaderString (s ++ ';' :: " extraDirective".toList) = ParseHeaderString s) ∧
    (∀ a b : List Char,
      ParseHeaderString (a ++ ';' :: (" extraDirective".toList ++ ';' :: b)) =
        ParseHeaderString (a ++ ';' :: b)) :=
  ParseHeaderString_insert_ignored " extraDirective".toList (by decide) (Or.inr (by decide))

end Hstspreload
